import Mathlib

/-!
# Verification of the QPE eigenvalue builder and the approximate IQFT

Shallow embedding of the two source files of the repository:

* `qiskit/aqua/components/eigs/qpe.py` — the `QPE` eigenvalue-estimation
  circuit builder (constant derivation, hermitization, circuit assembly,
  negative-eigenvalue correction);
* `qiskit_acqua/utils/iqfts/approximate.py` — the approximate inverse QFT
  builder (`Approximate.construct_circuit`).

Python floats are modelled by `ℝ`, Python/numpy complex numbers by `ℂ`,
numpy boolean arrays by `List Bool`, and Python float division by a
fallible operation (`ZeroDivisionError` when the divisor is zero).  Gate
emissions are modelled as a `List Gate`.  External pluggable components
(the two auxiliary QFTs used by the negative-eigenvalue correction, and
the external `PhaseEstimation` synthesizer) are abstracted as parameters
producing gate lists.
-/

open scoped BigOperators

/-- A Pauli term label: the numpy boolean arrays `z` and `x` of qiskit's
`Pauli` object, as inspected by `QPE._init_constants`. -/
structure Pauli where
  z : List Bool
  x : List Bool
  deriving DecidableEq, Repr

/-- The all-identity check `np.all(p[1].z == 0) and np.all(p[1].x == 0)`
of `QPE._init_constants` (qpe.py line 193). -/
def Pauli.isId (p : Pauli) : Bool :=
  p.z.all (fun b => !b) && p.x.all (fun b => !b)

/-- An operator's Pauli decomposition: the list `operator.paulis` of
(coefficient, Pauli-label) pairs. -/
abbrev Paulis := List (ℂ × Pauli)

/-- The bound `lmax = sum([abs(p[0]) for p in self._operator.paulis])`
(qpe.py line 184): sum of absolute values of the Pauli coefficients. -/
noncomputable def lmax (paulis : Paulis) : ℝ :=
  (paulis.map (fun p => Complex.abs p.1)).sum

/-- Python float division: raises `ZeroDivisionError` on a zero divisor,
otherwise returns the quotient. -/
noncomputable def fdiv (x y : ℝ) : Except String ℝ :=
  if y = 0 then .error "float division by zero" else .ok (x / y)

/-- The evolution-time derivation of `QPE._init_constants`
(qpe.py lines 183–188): the user-supplied value when one was given, else
`(1-2**-num_ancillae)*2*np.pi/lmax` when `negative_evals` is false and
`(1/2-2**-num_ancillae)*2*np.pi/lmax` when it is true. -/
noncomputable def evoTimeAfterInit (paulis : Paulis) (num_ancillae : ℕ)
    (negative_evals : Bool) : Option ℝ → Except String ℝ
  | some t => .ok t
  | none =>
      if !negative_evals then
        fdiv ((1 - (2:ℝ) ^ (-(num_ancillae : ℤ))) * 2 * Real.pi) (lmax paulis)
      else
        fdiv ((1 / 2 - (2:ℝ) ^ (-(num_ancillae : ℤ))) * 2 * Real.pi) (lmax paulis)

/-- The state fields of a `QPE` instance set by `_init_constants`:
`self._evo_time` and `self._ancilla_phase_coef` (absent when the operator
has no identity term, since the attribute is then never assigned). -/
structure QPEInit where
  evo_time : ℝ
  ancilla_phase_coef : Option ℝ

/-- The identity-term scan of `QPE._init_constants` (qpe.py lines 190–197):
walks the term list keeping the running count `n` of identity terms and the
last recorded coefficient `c`; raises
`RuntimeError('Multiple identity pauli terms are present.')` as soon as the
count exceeds one, otherwise records the identity coefficient's real part
(`p[0].real if isinstance(p[0], complex) else p[0]`; a real coefficient is
its own real part, so `.re` is taken uniformly in the model). -/
def scanIdentities : Paulis → ℕ → Option ℝ → Except String (ℕ × Option ℝ)
  | [], n, c => .ok (n, c)
  | p :: rest, n, c =>
      if p.2.isId then
        if n + 1 > 1 then
          .error "Multiple identity pauli terms are present."
        else
          scanIdentities rest (n + 1) (some p.1.re)
      else
        scanIdentities rest n c

/-- `QPE._init_constants` (qpe.py lines 179–197): first derives the
evolution time (possibly dividing by `lmax`), then scans for identity
terms; on success the instance holds `(_evo_time, _ancilla_phase_coef)`. -/
noncomputable def init_constants (paulis : Paulis) (num_ancillae : ℕ)
    (negative_evals : Bool) (evo_time : Option ℝ) :
    Except String QPEInit :=
  match evoTimeAfterInit paulis num_ancillae negative_evals evo_time with
  | .error e => .error e
  | .ok t =>
      match scanIdentities paulis 0 none with
      | .error e => .error e
      | .ok (_, c) => .ok ⟨t, c⟩

/-- `QPE.get_scaling` (qpe.py lines 202–203): returns `self._evo_time`. -/
def get_scaling (st : QPEInit) : ℝ := st.evo_time

/-- Number of all-identity terms in a decomposition. -/
def countId (paulis : Paulis) : ℕ :=
  (paulis.filter (fun p => p.2.isId)).length

/-- A quantum gate as emitted by the two source files: Hadamard,
controlled-NOT (`cx`), or controlled phase rotation (`cu1`, with its
angle). Qubits are identified by their index inside their register. -/
inductive Gate
  | h (q : ℕ)
  | cx (ctrl tgt : ℕ)
  | cu1 (lam : ℝ) (ctrl tgt : ℕ)

namespace Approximate

/-- The lower end `np.max([0, j - self._num_qubits + self._degree + 1])`
of the neighbor window (approximate.py line 67); computed in ℤ, as Python
integers can be negative before the `max`. -/
def neighborLo (num_qubits degree j : ℕ) : ℕ :=
  (max 0 ((j : ℤ) - num_qubits + degree + 1)).toNat

/-- `neighbor_range = range(np.max([0, j - num_qubits + degree + 1]), j)`
(approximate.py line 67). -/
def neighbor_range (num_qubits degree j : ℕ) : List ℕ :=
  List.range' (neighborLo num_qubits degree j)
    (j - neighborLo num_qubits degree j)

/-- `Approximate.construct_circuit` in `'circuit'` mode
(approximate.py lines 64–70): for `j` in `reversed(range(num_qubits))`,
a Hadamard on qubit `j`, then for `k` in `reversed(neighbor_range)` a
`cu1(-1.0 * pi / float(2 ** (j - k)), register[j], register[k])`. -/
noncomputable def construct_circuit (num_qubits degree : ℕ) : List Gate :=
  ((List.range num_qubits).reverse).bind (fun j =>
    Gate.h j :: ((neighbor_range num_qubits degree j).reverse).map (fun k =>
      Gate.cu1 (-1 * Real.pi / (2:ℝ) ^ (j - k)) j k))

end Approximate

namespace QPE

/-- `QPE._handle_negative_evals` (qpe.py lines 233–241): `sgn = q[0]`,
`qs = q[1:]`; a `cx(sgn, qi)` for each magnitude qubit, the first
auxiliary QFT's gates over the magnitude qubits, then
`for i, qi in enumerate(reversed(qs)): qc.cu1(2*np.pi/2**(i+1), sgn, qi)`,
then the second auxiliary QFT's gates.  The two auxiliary components are
abstracted as gate-list producers `neQft0`, `neQft1`. -/
noncomputable def handle_negative_evals (neQft0 neQft1 : List ℕ → List Gate) :
    List ℕ → List Gate
  | [] => []
  | sgn :: qs =>
      (qs.map (fun qi => Gate.cx sgn qi))
        ++ neQft0 qs
        ++ ((qs.reverse).enum.map (fun p =>
              Gate.cu1 (2 * Real.pi / (2:ℝ) ^ (p.1 + 1)) sgn p.2))
        ++ neQft1 qs

/-- The message of the `ValueError` raised by `QPE.construct_circuit`
on vector mode (qpe.py line 217; the typo is the source's). -/
def vector_mode_message : String := "QPE only posslible as circuit not vector."

/-- `QPE.construct_circuit` (qpe.py lines 205–231): raises on
`mode == 'vector'`; otherwise allocates the ancilla register (modelled as
qubits `0..num_ancillae-1`), obtains the phase-estimation circuit from
the external `PhaseEstimation` synthesizer (abstracted as the gate list
`peCircuit`), and appends the negative-eigenvalue correction when
`self._negative_evals` is set. -/
noncomputable def construct_circuit (negative_evals : Bool) (num_ancillae : ℕ)
    (peCircuit : List Gate) (neQft0 neQft1 : List ℕ → List Gate)
    (mode : String) : Except String (List Gate) :=
  if mode = "vector" then .error vector_mode_message
  else
    let a := List.range num_ancillae
    let qc := peCircuit
    let qc := if negative_evals then
      qc ++ handle_negative_evals neQft0 neQft1 a else qc
    .ok qc

end QPE

/-- The hermitization of `QPE.init_params` (qpe.py lines 147–150):
`new_matrix` is the `2n × 2n` zero matrix with
`new_matrix[n:, :n] = np.matrix.getH(matrix)` (the conjugate transpose)
and `new_matrix[:n, n:] = matrix`.  Matrices are total functions on
indices; entries outside the `2n × 2n` range are zero. -/
noncomputable def hermitize (n : ℕ) (A : ℕ → ℕ → ℂ) : ℕ → ℕ → ℂ := fun i j =>
  if i < n then
    if j < n then 0
    else if j < 2 * n then A i (j - n)
    else 0
  else if i < 2 * n then
    if j < n then (starRingEnd ℂ) (A j (i - n))
    else 0
  else 0

/-- The fields of the `eigs` parameter dictionary read by
`QPE.init_params` (qpe.py lines 134–136). -/
structure EigsParams where
  num_ancillae : ℕ
  hermitian_matrix : Bool
  negative_evals : Bool

/-- The outputs of `QPE.init_params` relevant to the claims: what the
`args` dictionary hands to the `QPE` constructor, the operator matrix,
and the qubit counts used to size the main IQFT and the two auxiliary
QFTs (`none` when the auxiliary QFTs are not constructed). -/
structure InitParamsResult where
  args_num_ancillae : ℕ
  args_negative_evals : Bool
  matrix_dim : ℕ
  matrix : ℕ → ℕ → ℂ
  iqft_num_qubits : ℕ
  ne_qfts_num_qubits : Option ℕ

/-- `QPE.init_params` (qpe.py lines 118–177) on an `n × n` input matrix
`A`.  `args` starts as a copy of the `eigs` parameter dictionary
(line 133).  Lines 139–141: when `negative_evals` is set,
`num_ancillae += 1` and `args['num_ancillae']` is updated — but the
`eigs_params` dictionary itself is not.  Lines 145–150: when the matrix
is not Hermitian, only the *local variable* `negative_evals` is
reassigned to `True` (the `args` entry keeps the caller's value) and the
matrix is replaced by its hermitization.  Line 155 sizes the IQFT from
`eigs_params['num_ancillae']`, the never-updated dictionary entry.
Lines 161–175 build the two auxiliary QFTs with
`qft_num_qubits - 1` qubits exactly when the local `negative_evals` is
true. -/
noncomputable def init_params (p : EigsParams) (n : ℕ) (A : ℕ → ℕ → ℂ) :
    InitParamsResult :=
  let num_ancillae := if p.negative_evals then p.num_ancillae + 1
    else p.num_ancillae
  let negative_evals := if !p.hermitian_matrix then true else p.negative_evals
  let matrix_dim := if !p.hermitian_matrix then 2 * n else n
  let matrix := if !p.hermitian_matrix then hermitize n A else A
  let iqft_num_qubits := p.num_ancillae
  let ne_qfts_num_qubits := if negative_evals then some (iqft_num_qubits - 1)
    else none
  { args_num_ancillae := num_ancillae
    args_negative_evals := p.negative_evals
    matrix_dim := matrix_dim
    matrix := matrix
    iqft_num_qubits := iqft_num_qubits
    ne_qfts_num_qubits := ne_qfts_num_qubits }

/-! ## Helper lemmas -/

/-- From a running count of one identity term, any further identity term
aborts the scan with the `RuntimeError`. -/
theorem scanIdentities_one (l : Paulis) (c : Option ℝ) :
    scanIdentities l 1 c =
      if countId l = 0 then .ok (1, c)
      else .error "Multiple identity pauli terms are present." := by
  induction l generalizing c with
  | nil => simp [scanIdentities, countId]
  | cons p rest ih =>
      by_cases hp : p.2.isId
      · simp [scanIdentities, hp, countId, List.filter_cons]
      · have h2 : scanIdentities (p :: rest) 1 c = scanIdentities rest 1 c := by
          simp [scanIdentities, hp]
        rw [h2, ih c]
        have h3 : List.filter (fun q : ℂ × Pauli => q.2.isId) (p :: rest)
            = List.filter (fun q : ℂ × Pauli => q.2.isId) rest := by
          rw [List.filter_cons]
          simp [hp]
        simp only [countId, h3]

/-- Closed form of the identity scan as started by `_init_constants`. -/
theorem scanIdentities_zero (l : Paulis) :
    scanIdentities l 0 none =
      match l.filter (fun p => p.2.isId) with
      | [] => .ok (0, none)
      | [q] => .ok (1, some q.1.re)
      | _ :: _ :: _ => .error "Multiple identity pauli terms are present." := by
  induction l with
  | nil => simp [scanIdentities]
  | cons p rest ih =>
      by_cases hp : p.2.isId
      · have h2 : scanIdentities (p :: rest) 0 none
            = scanIdentities rest 1 (some p.1.re) := by
          simp [scanIdentities, hp]
        rw [h2, scanIdentities_one, List.filter_cons]
        cases hf : rest.filter (fun p => p.2.isId) with
        | nil => simp [hp, countId, hf]
        | cons q qs => simp [hp, countId, hf]
      · have h2 : scanIdentities (p :: rest) 0 none
            = scanIdentities rest 0 none := by
          simp [scanIdentities, hp]
        rw [h2, ih, List.filter_cons]
        simp [hp]

/-- Enumerating a list from `n` and mapping is indexing into the list. -/
theorem enumFrom_map_getD {α β : Type} (l : List α) (n : ℕ)
    (f : ℕ → α → β) (d : α) :
    (l.enumFrom n).map (fun p => f p.1 p.2)
      = (List.range l.length).map (fun i => f (n + i) (l.getD i d)) := by
  induction l generalizing n with
  | nil => simp
  | cons x xs ih =>
      have h1 : (x :: xs).enumFrom n = (n, x) :: xs.enumFrom (n + 1) := rfl
      rw [h1, List.map_cons, ih]
      have h2 : List.range (x :: xs).length
          = 0 :: (List.range xs.length).map Nat.succ := by
        simpa using List.range_succ_eq_map xs.length
      rw [h2, List.map_cons, List.map_map]
      refine congrArg₂ (· :: ·) (by simp) ?_
      refine List.map_congr_left (fun i hi => ?_)
      simp only [Function.comp, Nat.succ_eq_add_one, List.getD_cons_succ]
      have hni : n + (i + 1) = n + 1 + i := by omega
      rw [hni]

/-- The filtered ascending range below `b` with lower bound `a`. -/
theorem filter_range_le (a b : ℕ) :
    (List.range b).filter (fun k => a ≤ k) = List.range' a (b - a) := by
  induction b with
  | zero => simp
  | succ b ih =>
      rw [List.range_succ, List.filter_append, ih]
      by_cases h : a ≤ b
      · have hb : b + 1 - a = (b - a) + 1 := by omega
        rw [hb, List.range'_concat]
        have hba : a + (b - a) = b := by omega
        simp [h, hba]
      · have hb : b + 1 - a = 0 := by omega
        have hb' : b - a = 0 := by omega
        simp [h, hb, hb']

/-! ## Claims about the constant derivation -/

/-- Claim C1: for every operator whose Pauli coefficients sum in absolute
value to `L > 0`, and every ancilla count `a`, if no evolution time was
supplied then the constant-derivation step sets the evolution time to
`(1 - 2^-a)*2*pi/L` when `negative_evals` is false, and to
`(1/2 - 2^-a)*2*pi/L` when `negative_evals` is true; `get_scaling()` then
returns exactly this value (or the user-supplied value when one was
given). -/
theorem C1_evo_time_formula (paulis : Paulis) (a : ℕ)
    (hL : 0 < lmax paulis) :
    evoTimeAfterInit paulis a false none
        = .ok ((1 - (2:ℝ) ^ (-(a : ℤ))) * 2 * Real.pi / lmax paulis)
    ∧ evoTimeAfterInit paulis a true none
        = .ok ((1 / 2 - (2:ℝ) ^ (-(a : ℤ))) * 2 * Real.pi / lmax paulis)
    ∧ (∀ (neg : Bool) (t : ℝ), evoTimeAfterInit paulis a neg (some t) = .ok t)
    ∧ (∀ (neg : Bool) (evo : Option ℝ) (st : QPEInit),
        init_constants paulis a neg evo = .ok st →
          evoTimeAfterInit paulis a neg evo = .ok (get_scaling st)) := by
  have hne : lmax paulis ≠ 0 := ne_of_gt hL
  refine ⟨by simp [evoTimeAfterInit, fdiv, hne],
    by simp [evoTimeAfterInit, fdiv, hne], fun neg t => rfl, ?_⟩
  intro neg evo st h
  unfold init_constants at h
  cases he : evoTimeAfterInit paulis a neg evo with
  | error e => rw [he] at h; exact absurd h (by simp)
  | ok t =>
      rw [he] at h
      cases hs : scanIdentities paulis 0 none with
      | error e => rw [hs] at h; exact absurd h (by simp)
      | ok pr =>
          obtain ⟨m, c⟩ := pr
          rw [hs] at h
          simp only [Except.ok.injEq] at h
          subst h
          rfl

/-- Witness for C1: a single non-identity term of coefficient `1`, two
ancillae. -/
theorem C1_evo_time_formula_witness :
    evoTimeAfterInit [((1:ℂ), Pauli.mk [true] [false])] 2 false none
        = .ok ((1 - (2:ℝ) ^ (-(2 : ℤ))) * 2 * Real.pi
            / lmax [((1:ℂ), Pauli.mk [true] [false])])
    ∧ evoTimeAfterInit [((1:ℂ), Pauli.mk [true] [false])] 2 true none
        = .ok ((1 / 2 - (2:ℝ) ^ (-(2 : ℤ))) * 2 * Real.pi
            / lmax [((1:ℂ), Pauli.mk [true] [false])])
    ∧ (∀ (neg : Bool) (t : ℝ),
        evoTimeAfterInit [((1:ℂ), Pauli.mk [true] [false])] 2 neg (some t)
          = .ok t)
    ∧ (∀ (neg : Bool) (evo : Option ℝ) (st : QPEInit),
        init_constants [((1:ℂ), Pauli.mk [true] [false])] 2 neg evo = .ok st →
          evoTimeAfterInit [((1:ℂ), Pauli.mk [true] [false])] 2 neg evo
            = .ok (get_scaling st)) :=
  C1_evo_time_formula [((1:ℂ), Pauli.mk [true] [false])] 2
    (by norm_num [lmax])

/-- Claim C6 counterexample: with two identity terms of coefficient `0`
and no supplied evolution time, the step fails with the division error of
the evolution-time derivation, not with the identity configuration error
— so "fails with a configuration error iff two or more identity terms"
is false as stated. -/
theorem C6_counterexample :
    init_constants [((0:ℂ), Pauli.mk [false] [false]),
        ((0:ℂ), Pauli.mk [false] [false])] 1 false none
      = .error "float division by zero"
    ∧ ("float division by zero" : String)
        ≠ "Multiple identity pauli terms are present." := by
  constructor
  · have hl : lmax [((0:ℂ), Pauli.mk [false] [false]),
        ((0:ℂ), Pauli.mk [false] [false])] = 0 := by
      simp [lmax]
    unfold init_constants evoTimeAfterInit fdiv
    simp [hl]
  · decide

/-- Claim C6 (amended): provided the evolution-time derivation does not
fail first (an evolution time was supplied, or the coefficients' absolute
values have nonzero sum), the constant-derivation step fails with a
configuration error if and only if the decomposition contains two or more
all-identity terms; with exactly one identity term the derived ancilla
phase offset equals that term's coefficient's real part; with zero
identity terms no error is raised. -/
theorem C6_identity_scan (paulis : Paulis) (a : ℕ) (neg : Bool)
    (evo : Option ℝ) (hdiv : evo ≠ none ∨ lmax paulis ≠ 0) :
    ((∃ e, init_constants paulis a neg evo = .error e)
        ↔ 2 ≤ countId paulis)
    ∧ (∀ (c : ℂ) (pl : Pauli),
        paulis.filter (fun q => q.2.isId) = [(c, pl)] →
          ∃ t, init_constants paulis a neg evo = .ok ⟨t, some c.re⟩)
    ∧ (countId paulis = 0 →
        ∃ t, init_constants paulis a neg evo = .ok ⟨t, none⟩) := by
  obtain ⟨t, ht⟩ : ∃ t, evoTimeAfterInit paulis a neg evo = .ok t := by
    rcases hdiv with h | h
    · cases evo with
      | none => exact absurd rfl h
      | some t => exact ⟨t, rfl⟩
    · cases evo with
      | some t => exact ⟨t, rfl⟩
      | none =>
          unfold evoTimeAfterInit fdiv
          cases neg <;> simp [h]
  unfold init_constants
  rw [ht, scanIdentities_zero]
  rcases hf : paulis.filter (fun q => q.2.isId) with _ | ⟨q, _ | ⟨q', qs⟩⟩
  · simp [countId, hf]
  · refine ⟨by simp [countId, hf], ?_, by simp [countId, hf]⟩
    intro c pl hc
    rw [hf] at hc
    simp only [List.cons.injEq, and_true] at hc
    subst hc
    rw [hf]
    exact ⟨t, rfl⟩
  · refine ⟨by simp [countId, hf], ?_, by simp [countId, hf]⟩
    intro c pl hc
    rw [hf] at hc
    simp at hc

/-- Witness for C6 (amended): one identity term of coefficient `3`, with
a supplied evolution time. -/
theorem C6_identity_scan_witness :
    ((∃ e, init_constants [((3:ℂ), Pauli.mk [false] [false])] 1 false
        (some 1) = .error e)
      ↔ 2 ≤ countId [((3:ℂ), Pauli.mk [false] [false])])
    ∧ (∀ (c : ℂ) (pl : Pauli),
        ([((3:ℂ), Pauli.mk [false] [false])] : Paulis).filter
            (fun q => q.2.isId) = [(c, pl)] →
          ∃ t, init_constants [((3:ℂ), Pauli.mk [false] [false])] 1 false
            (some 1) = .ok ⟨t, some c.re⟩)
    ∧ (countId [((3:ℂ), Pauli.mk [false] [false])] = 0 →
        ∃ t, init_constants [((3:ℂ), Pauli.mk [false] [false])] 1 false
          (some 1) = .ok ⟨t, none⟩) :=
  C6_identity_scan [((3:ℂ), Pauli.mk [false] [false])] 1 false (some 1)
    (Or.inl (by simp))

/-- Claim C10: the evolution-time derivation divides by `lmax` (the sum
of absolute coefficient values) without any guard: whenever `lmax` is
nonzero the division is well-defined and the derivation succeeds, and the
precondition `lmax ≠ 0` is required — with `lmax = 0` the derivation is a
division by zero (`ZeroDivisionError`), and both the empty term list and
all-zero coefficients produce `lmax = 0`. -/
theorem C10_division_by_lmax (paulis : Paulis) (a : ℕ) (neg : Bool) :
    (lmax paulis ≠ 0 →
        evoTimeAfterInit paulis a neg none
          = .ok ((if neg then (1 / 2 - (2:ℝ) ^ (-(a : ℤ))) * 2 * Real.pi
              else (1 - (2:ℝ) ^ (-(a : ℤ))) * 2 * Real.pi) / lmax paulis))
    ∧ (lmax paulis = 0 →
        evoTimeAfterInit paulis a neg none
          = .error "float division by zero")
    ∧ lmax ([] : Paulis) = 0
    ∧ ((∀ p ∈ paulis, p.1 = 0) → lmax paulis = 0) := by
  refine ⟨?_, ?_, by simp [lmax], ?_⟩
  · intro h
    unfold evoTimeAfterInit fdiv
    cases neg <;> simp [h]
  · intro h
    unfold evoTimeAfterInit fdiv
    cases neg <;> simp [h]
  · intro h
    unfold lmax
    refine List.sum_eq_zero ?_
    intro x hx
    simp only [List.mem_map] at hx
    obtain ⟨p, hp, rfl⟩ := hx
    simp [h p hp]

/-- Witness for C10: the division succeeds on a unit-coefficient operator
and the divisor vanishes on a zero-coefficient operator. -/
theorem C10_division_by_lmax_witness :
    evoTimeAfterInit [((1:ℂ), Pauli.mk [true] [false])] 1 false none
      = .ok ((if false then (1 / 2 - (2:ℝ) ^ (-(1 : ℤ))) * 2 * Real.pi
          else (1 - (2:ℝ) ^ (-(1 : ℤ))) * 2 * Real.pi)
          / lmax [((1:ℂ), Pauli.mk [true] [false])])
    ∧ lmax [((0:ℂ), Pauli.mk [true] [false])] = 0 :=
  ⟨(C10_division_by_lmax [((1:ℂ), Pauli.mk [true] [false])] 1 false).1
      (by norm_num [lmax]),
   (C10_division_by_lmax [((0:ℂ), Pauli.mk [true] [false])] 1 false).2.2.2
      (by simp)⟩

/-! ## Claims about the approximate IQFT -/

/-- A neighbor window equals a lower-bound filter over `range j`. -/
theorem neighbor_range_eq_filter (n d j : ℕ) :
    Approximate.neighbor_range n d j
      = (List.range j).filter
          (fun (k : ℕ) => decide (max 0 ((j:ℤ) - n + d + 1) ≤ (k:ℤ))) := by
  unfold Approximate.neighbor_range
  rw [← filter_range_le (Approximate.neighborLo n d j) j]
  refine List.filter_congr (fun k hk => ?_)
  simp only [decide_eq_decide]
  unfold Approximate.neighborLo
  omega

/-- Binding into singletons is mapping. -/
theorem bind_singleton_eq_map {α β : Type} (l : List α) (f : α → β) :
    l.bind (fun a => [f a]) = l.map f := by
  induction l with
  | nil => rfl
  | cons x xs ih => simp only [List.cons_bind, List.map_cons, ih]; rfl

/-- Claim C5: for every `num_qubits` and `degree`, the approximate-QFT
circuit mode processes qubit indices `j` from most- to least-significant,
applying a Hadamard on qubit `j` and then a controlled-phase rotation
from qubit `j` to each qubit `k` in the window
`[max(0, j - num_qubits + degree + 1), j)`, with angle `-pi / 2^(j-k)`. -/
theorem C5_window_characterization (n d : ℕ) :
    Approximate.construct_circuit n d
      = ((List.range n).reverse).bind (fun j =>
          Gate.h j ::
            (((List.range j).filter
                (fun (k : ℕ) =>
                  decide (max 0 ((j:ℤ) - n + d + 1) ≤ (k:ℤ)))).reverse.map
              (fun k => Gate.cu1 (-1 * Real.pi / (2:ℝ) ^ (j - k)) j k))) := by
  unfold Approximate.construct_circuit
  refine congrArg (List.bind ((List.range n).reverse)) (funext fun j => ?_)
  rw [neighbor_range_eq_filter]

/-- Claim C2 counterexample: at `num_qubits = 2`, circuit mode with
`degree = 0` emits a controlled-phase gate (refuting "degree 0 gives only
the per-qubit Hadamards and no cu1 gates"), while `degree = num_qubits`
emits only the two Hadamards (refuting "degree = num_qubits gives a
controlled-phase gate for every pair (j,k) with k < j"). -/
theorem C2_counterexample :
    Approximate.construct_circuit 2 0
      = [Gate.h 1, Gate.cu1 (-1 * Real.pi / (2:ℝ) ^ (1 - 0)) 1 0, Gate.h 0]
    ∧ Approximate.construct_circuit 2 2 = [Gate.h 1, Gate.h 0] := by
  have e0 : Approximate.neighbor_range 2 0 0 = [] := by
    unfold Approximate.neighbor_range Approximate.neighborLo
    norm_num
  have e1 : Approximate.neighbor_range 2 0 1 = [0] := by
    unfold Approximate.neighbor_range Approximate.neighborLo
    norm_num
  have e2 : Approximate.neighbor_range 2 2 0 = [] := by
    unfold Approximate.neighbor_range Approximate.neighborLo
    norm_num
  have e3 : Approximate.neighbor_range 2 2 1 = [] := by
    unfold Approximate.neighbor_range Approximate.neighborLo
    norm_num
  constructor <;>
    simp [Approximate.construct_circuit, List.range_succ, e0, e1, e2, e3]

/-- Claim C2 (amended): for every `num_qubits`, circuit mode with
`degree = 0` emits a controlled-phase gate for every pair `(j, k)` with
`k < j` (the full exact-QFT connectivity), and with
`degree = num_qubits` it emits only the per-qubit Hadamard gates and no
controlled-phase (`cu1`) gates at all — the source's degree counts
*dropped* long-range interactions, the opposite of the claim. -/
theorem C2_approx_degree (n : ℕ) :
    (∀ j k, j < n → k < j →
        Gate.cu1 (-1 * Real.pi / (2:ℝ) ^ (j - k)) j k
          ∈ Approximate.construct_circuit n 0)
    ∧ Approximate.construct_circuit n n
        = ((List.range n).reverse).map Gate.h := by
  constructor
  · intro j k hj hk
    unfold Approximate.construct_circuit
    rw [List.mem_bind]
    refine ⟨j, by simp [hj], List.mem_cons_of_mem _ ?_⟩
    rw [List.mem_map]
    refine ⟨k, ?_, rfl⟩
    rw [List.mem_reverse]
    unfold Approximate.neighbor_range Approximate.neighborLo
    rw [List.mem_range'_1]
    omega
  · unfold Approximate.construct_circuit
    have hr : ∀ j, Approximate.neighbor_range n n j = [] := by
      intro j
      unfold Approximate.neighbor_range Approximate.neighborLo
      have hlo : (max 0 ((j:ℤ) - n + n + 1)).toNat = j + 1 := by omega
      rw [hlo]
      have : j - (j + 1) = 0 := by omega
      rw [this]
      rfl
    calc ((List.range n).reverse).bind (fun j =>
            Gate.h j :: ((Approximate.neighbor_range n n j).reverse).map
              (fun k => Gate.cu1 (-1 * Real.pi / (2:ℝ) ^ (j - k)) j k))
        = ((List.range n).reverse).bind (fun j => [Gate.h j]) := by
          refine congrArg (List.bind ((List.range n).reverse))
            (funext fun j => ?_)
          rw [hr j]
          rfl
      _ = ((List.range n).reverse).map Gate.h :=
          bind_singleton_eq_map _ _

/-- Witness for C2 (amended) at `num_qubits = 2`. -/
theorem C2_approx_degree_witness :
    Gate.cu1 (-1 * Real.pi / (2:ℝ) ^ (1 - 0)) 1 0
        ∈ Approximate.construct_circuit 2 0
    ∧ Approximate.construct_circuit 2 2
        = ((List.range 2).reverse).map Gate.h :=
  ⟨(C2_approx_degree 2).1 1 0 (by decide) (by decide),
   (C2_approx_degree 2).2⟩

/-! ## Claims about circuit assembly and the negative-eigenvalue correction -/

/-- The correction gate list of `_handle_negative_evals`, re-expressed
with explicit positional indexing: the `k`-th controlled rotation (from
`k = 0`) has angle `2*pi/2^(k+1)` and targets the `k`-th magnitude qubit
in reverse order. -/
theorem handle_negative_evals_spec (f0 f1 : List ℕ → List Gate) (sgn : ℕ)
    (qs : List ℕ) :
    QPE.handle_negative_evals f0 f1 (sgn :: qs)
      = qs.map (fun qi => Gate.cx sgn qi)
        ++ f0 qs
        ++ (List.range qs.length).map (fun k =>
            Gate.cu1 (2 * Real.pi / (2:ℝ) ^ (k + 1)) sgn
              (qs.reverse.getD k 0))
        ++ f1 qs := by
  have hC : ((qs.reverse).enum.map (fun p =>
        Gate.cu1 (2 * Real.pi / (2:ℝ) ^ (p.1 + 1)) sgn p.2))
      = (List.range qs.length).map (fun k =>
          Gate.cu1 (2 * Real.pi / (2:ℝ) ^ (k + 1)) sgn
            (qs.reverse.getD k 0)) := by
    have he := enumFrom_map_getD (qs.reverse) 0
      (fun i a => Gate.cu1 (2 * Real.pi / (2:ℝ) ^ (i + 1)) sgn a) 0
    simpa [List.enum] using he
  show (qs.map (fun qi => Gate.cx sgn qi))
      ++ f0 qs
      ++ ((qs.reverse).enum.map (fun p =>
            Gate.cu1 (2 * Real.pi / (2:ℝ) ^ (p.1 + 1)) sgn p.2))
      ++ f1 qs = _
  rw [hC]

/-- Claim C7: when `negative_evals` is active, the correction appended
after the phase-estimation circuit consists exactly of (1) a CNOT from
ancilla qubit 0 (the sign qubit) to every other ancilla qubit, (2) the
first auxiliary QFT component's circuit over the magnitude qubits,
(3) for the magnitude qubits taken in reverse order, a controlled phase
rotation of angle `2*pi/2^(k+1)` for the `k`-th qubit in that reversed
order (`k` from 0), controlled by the sign qubit, and (4) the second
auxiliary component's circuit over the magnitude qubits. -/
theorem C7_negative_correction (nq : ℕ) (pe : List Gate)
    (f0 f1 : List ℕ → List Gate) (h : 0 < nq) :
    QPE.construct_circuit true nq pe f0 f1 "circuit"
      = .ok (pe
          ++ (((List.range nq).tail).map (fun qi => Gate.cx 0 qi)
            ++ f0 (List.range nq).tail
            ++ (List.range ((List.range nq).tail).length).map (fun k =>
                  Gate.cu1 (2 * Real.pi / (2:ℝ) ^ (k + 1)) 0
                    ((((List.range nq).tail).reverse).getD k 0))
            ++ f1 (List.range nq).tail)) := by
  obtain ⟨m, rfl⟩ : ∃ m, nq = m + 1 := ⟨nq - 1, by omega⟩
  have hcons : List.range (m + 1) = 0 :: (List.range (m + 1)).tail := by
    rw [List.range_succ_eq_map]
    rfl
  unfold QPE.construct_circuit
  rw [if_neg (by decide)]
  simp only [if_true]
  rw [hcons]
  simp only [List.tail_cons]
  rw [handle_negative_evals_spec]

/-- Witness for C7 with three ancilla qubits, an empty external
phase-estimation circuit and empty auxiliary components. -/
theorem C7_negative_correction_witness :
    QPE.construct_circuit true 3 [] (fun _ => []) (fun _ => []) "circuit"
      = .ok (([] : List Gate)
          ++ (((List.range 3).tail).map (fun qi => Gate.cx 0 qi)
            ++ (fun _ => ([] : List Gate)) (List.range 3).tail
            ++ (List.range ((List.range 3).tail).length).map (fun k =>
                  Gate.cu1 (2 * Real.pi / (2:ℝ) ^ (k + 1)) 0
                    ((((List.range 3).tail).reverse).getD k 0))
            ++ (fun _ => ([] : List Gate)) (List.range 3).tail)) :=
  C7_negative_correction 3 [] (fun _ => []) (fun _ => []) (by decide)

/-- Claim C8: for every configuration and register argument, the QPE
builder's `construct_circuit` with mode `'vector'` fails with the
unsupported-operation error and never returns a circuit. -/
theorem C8_vector_mode_fails (neg : Bool) (nq : ℕ) (pe : List Gate)
    (f0 f1 : List ℕ → List Gate) :
    QPE.construct_circuit neg nq pe f0 f1 "vector"
      = .error QPE.vector_mode_message := by
  unfold QPE.construct_circuit
  rw [if_pos rfl]

/-- Claim C9: the QPE builder's `construct_circuit` performs no
validation of the mode string other than the check against `'vector'`:
every other mode string (e.g. `'foo'`) is handled exactly like
`'circuit'` and raises no unsupported-mode error. -/
theorem C9_no_other_mode_validation (mode : String) (hm : mode ≠ "vector")
    (neg : Bool) (nq : ℕ) (pe : List Gate) (f0 f1 : List ℕ → List Gate) :
    QPE.construct_circuit neg nq pe f0 f1 mode
      = QPE.construct_circuit neg nq pe f0 f1 "circuit" := by
  unfold QPE.construct_circuit
  rw [if_neg hm, if_neg (by decide)]

/-- Witness for C9 at the unrecognized mode string `'foo'`. -/
theorem C9_no_other_mode_validation_witness :
    QPE.construct_circuit false 1 [] (fun _ => []) (fun _ => []) "foo"
      = QPE.construct_circuit false 1 [] (fun _ => []) (fun _ => [])
          "circuit" :=
  C9_no_other_mode_validation "foo" (by decide) false 1 []
    (fun _ => []) (fun _ => [])

/-! ## Claims about `init_params` and hermitization -/

/-- Claim C3 evaluated on the code: with the caller's `negative_evals`
flag set (`num_ancillae = 2`), the QPE constructor receives the
incremented count 3, but the main IQFT is sized from the never-updated
parameter-dictionary entry (2, not 3); and when negative-eigenvalue
support is only forced by hermitization of a non-Hermitian matrix, no
increment happens at all and the constructor keeps the caller's flag,
even though the two auxiliary QFTs are built (`some 1`). -/
theorem C3_ancilla_increment_evaluation :
    (init_params ⟨2, true, true⟩ 1 (fun _ _ => 0)).args_num_ancillae = 3
    ∧ (init_params ⟨2, true, true⟩ 1 (fun _ _ => 0)).iqft_num_qubits = 2
    ∧ (init_params ⟨2, false, false⟩ 1 (fun _ _ => 0)).args_num_ancillae = 2
    ∧ (init_params ⟨2, false, false⟩ 1 (fun _ _ => 0)).args_negative_evals
        = false
    ∧ (init_params ⟨2, false, false⟩ 1 (fun _ _ => 0)).ne_qfts_num_qubits
        = some 1 :=
  ⟨rfl, rfl, rfl, rfl, rfl⟩

/-- Claim C4: for a square matrix `A` flagged non-Hermitian, hermitization
builds the `2n x 2n` block matrix `B` with top-right block `A`,
bottom-left block the conjugate transpose of `A`, and zero diagonal
blocks; `B` is Hermitian, and `init_params` substitutes it for the
operator.  The last two conjuncts evaluate the flag at the failing input:
the `negative_evals` handed to the constructor stays the caller's `false`
(only the local variable is flipped — the auxiliary QFTs are nevertheless
built, witnessed by the `some`), refuting "sets negative_evals to true
downstream". -/
theorem C4_hermitization (n : ℕ) (A : ℕ → ℕ → ℂ) (p : EigsParams) :
    (∀ i j, hermitize n A i j = (starRingEnd ℂ) (hermitize n A j i))
    ∧ (∀ (i j : Fin n), hermitize n A i.val (n + j.val) = A i.val j.val)
    ∧ (∀ (i j : Fin n),
        hermitize n A (n + i.val) j.val = (starRingEnd ℂ) (A j.val i.val))
    ∧ (∀ (i j : Fin n), hermitize n A i.val j.val = 0
        ∧ hermitize n A (n + i.val) (n + j.val) = 0)
    ∧ (init_params ⟨p.num_ancillae, false, p.negative_evals⟩ n A).matrix
        = hermitize n A
    ∧ (init_params ⟨p.num_ancillae, false, p.negative_evals⟩ n A).matrix_dim
        = 2 * n
    ∧ (init_params ⟨1, false, false⟩ 1 (fun _ _ => 0)).args_negative_evals
        = false
    ∧ (init_params ⟨1, false, false⟩ 1 (fun _ _ => 0)).ne_qfts_num_qubits
        = some 0 := by
  refine ⟨?_, ?_, ?_, ?_, rfl, rfl, rfl, rfl⟩
  · intro i j
    by_cases h1 : i < n <;> by_cases h2 : j < n <;>
      by_cases h3 : i < 2 * n <;> by_cases h4 : j < 2 * n <;>
      simp [hermitize, h1, h2, h3, h4, Complex.conj_conj]
  · intro i j
    have hi := i.isLt
    have hj := j.isLt
    simp only [hermitize]
    rw [if_pos hi, if_neg (by omega : ¬ n + j.val < n),
      if_pos (by omega : n + j.val < 2 * n), Nat.add_sub_cancel_left]
  · intro i j
    have hi := i.isLt
    have hj := j.isLt
    simp only [hermitize]
    rw [if_neg (by omega : ¬ n + i.val < n),
      if_pos (by omega : n + i.val < 2 * n), if_pos hj,
      Nat.add_sub_cancel_left]
  · intro i j
    have hi := i.isLt
    have hj := j.isLt
    constructor
    · simp only [hermitize]
      rw [if_pos hi, if_pos hj]
    · simp only [hermitize]
      rw [if_neg (by omega : ¬ n + i.val < n),
        if_pos (by omega : n + i.val < 2 * n),
        if_neg (by omega : ¬ n + j.val < n)]
